import Mathlib

/-!
Verification of the pitch-detector core: the note mapper, the stability
voter and the match/lock controller, embedded from the TypeScript sources
(`src/components/PianoKeys.tsx`, `src/hooks/usePitchDetection.ts`,
`src/App.tsx`).  Machine numbers are modelled by `ℤ`/`ℚ`/`ℝ`; the voter
window is a `List`; the per-frame loop is a step function on an explicit
state record.
-/

namespace PitchDetector

/-- The fixed chromatic name table from `PianoKeys.tsx` (`NOTE_NAMES`). -/
def NOTE_NAMES : List String :=
  ["C", "C#", "D", "D#", "E", "F"] ++ ["F#", "G", "G#", "A", "A#", "B"]

/-- `frequencyToMidi` from `PianoKeys.tsx`:
`if (freq <= 0) return -1; return Math.round(69 + 12 * Math.log2(freq / 440))`.
JS `Math.round` rounds half toward `+∞`, which is Mathlib's `round`. -/
noncomputable def frequencyToMidi (freq : ℝ) : ℤ :=
  if freq ≤ 0 then -1 else round (69 + 12 * Real.logb 2 (freq / 440))

/-- `midiToNoteName` from `PianoKeys.tsx`:
`if (midi < 0 || midi > 127) return ''; NOTE_NAMES[midi % 12]` concatenated
with `Math.floor(midi / 12) - 1`.  For `0 ≤ midi` the JS `%` and
`Math.floor` of the quotient agree with `Int.emod` and `Int.div`. -/
def midiToNoteName (midi : ℤ) : String :=
  if midi < 0 ∨ midi > 127 then ""
  else NOTE_NAMES.getD (midi % 12).toNat "" ++ toString (midi / 12 - 1)

/-- Modelled from the spec: `midiNoteToFrequency(note) = 440 * 2^((note - 69)/12)`.
The function is defined in `src/utils/pitch.ts`, which is absent from the
sources; only its callers (`App.tsx`, `usePitchDetection.ts`) appear. -/
noncomputable def midiToFrequency (note : ℤ) : ℝ :=
  440 * (2 : ℝ) ^ (((note : ℝ) - 69) / 12)

/-- An inclusive octave range, the `OctaveRange` record of the sources. -/
structure OctaveRange where
  start : ℤ
  «end» : ℤ
  deriving DecidableEq

/-- Modelled from the spec: target selection is a uniform-random note number
within `[octaveStart*12, octaveEnd*12 + 11]`.  The range-parameterised
`randomTargetNote` is defined in `src/utils/pitch.ts`, absent from the
sources; only its callers appear.  The uniform draw from `[0,1)` produced by
`Math.random()` is the explicit parameter `r`; the selected note is
`lo + ⌊r * (hi - lo + 1)⌋`. -/
def randomTargetNote (range : OctaveRange) (r : ℚ) : ℤ :=
  let lo := range.start * 12
  let hi := range.«end» * 12 + 11
  ⌊r * (hi - lo + 1 : ℤ)⌋ + lo

/-- The stale unparameterised `randomTargetNote` kept at the bottom of
`components/PianoKeys.tsx`: `Math.floor(Math.random() * (72 - 48 + 1)) + 48`. -/
def randomTargetNoteFixed (r : ℚ) : ℤ :=
  ⌊r * (72 - 48 + 1 : ℤ)⌋ + 48

/-! ## Stability voter (`NoteStabilityVoter` in `PianoKeys.tsx`) -/

/-- The voter state: the sliding window plus the construction-time
configuration (`windowSize` default 10, `threshold` default 0.7). -/
structure NoteStabilityVoter where
  window : List (Option ℤ)
  windowSize : ℕ
  threshold : ℚ
  deriving DecidableEq

/-- One step of the insertion-ordered tally built by the
`counts.set(note, (counts.get(note) || 0) + 1)` loop: a JS `Map` iterates
its keys in insertion order, so the accumulator is an association list that
appends a new key at the end and bumps an existing key in place. -/
def insertTally (acc : List (ℤ × ℕ)) (n : ℤ) : List (ℤ × ℕ) :=
  if acc.any (fun p => p.1 = n) then
    acc.map (fun p => if p.1 = n then (p.1, p.2 + 1) else p)
  else acc ++ [(n, 1)]

/-- The occurrence counts of the valid notes, in first-occurrence order. -/
def tally (notes : List ℤ) : List (ℤ × ℕ) :=
  notes.foldl insertTally []

/-- The `maxNote`/`maxCount` loop of `addDetection`: scan the tally and keep
the first entry whose count strictly exceeds the running maximum. -/
def pickMax (counts : List (ℤ × ℕ)) : Option ℤ × ℕ :=
  counts.foldl
    (fun acc p => if p.2 > acc.2 then (some p.1, p.2) else acc)
    (none, 0)

/-- `NoteStabilityVoter.addDetection`, returning the updated voter together
with the stable note (or `none`).  Mirrors the source: push, evict the
oldest past capacity, refuse below capacity, filter the absent entries,
tally, pick the maximum, and gate on `maxCount / validCount >= threshold`. -/
def addDetection (v : NoteStabilityVoter) (midi : Option ℤ) :
    NoteStabilityVoter × Option ℤ :=
  let w1 := v.window ++ [midi]
  let w2 := if w1.length > v.windowSize then w1.tail else w1
  let v' : NoteStabilityVoter := ⟨w2, v.windowSize, v.threshold⟩
  if w2.length < v.windowSize then (v', none)
  else
    let validNotes := w2.filterMap id
    if validNotes.length = 0 then (v', none)
    else
      let mc := pickMax (tally validNotes)
      match mc.1 with
      | none => (v', none)
      | some maxNote =>
          if v.threshold ≤ (mc.2 : ℚ) / (validNotes.length : ℚ) then
            (v', some maxNote)
          else (v', none)

/-- `NoteStabilityVoter.reset`: clear the window. -/
def reset (v : NoteStabilityVoter) : NoteStabilityVoter :=
  ⟨[], v.windowSize, v.threshold⟩

/-- Feeding a whole list of detections, keeping only the voter state. -/
def feed (v : NoteStabilityVoter) (l : List (Option ℤ)) : NoteStabilityVoter :=
  l.foldl (fun v a => (addDetection v a).1) v

/-- The maximum occurrence count among the elements of `l`
(0 for the empty list). -/
def maxCount (l : List ℤ) : ℕ :=
  (l.map fun n => l.count n).foldl max 0

/-! ## Match/lock controller (`detectLoop` in `usePitchDetection.ts`,
identical in `App.tsx`) -/

/-- The `PitchStatus` union of the sources. -/
inductive Status where
  | idle
  | listening
  | noPitch
  | correct
  | tryAgain
  deriving DecidableEq

/-- The `RingDirection` union of the sources. -/
inductive RingDirection where
  | neutral
  | flat
  | sharp
  | perfect
  deriving DecidableEq

/-- `PERFECT_CENTS = 10`. -/
def PERFECT_CENTS : ℚ := 10

/-- `HOLD_DURATION_MS = 1200`. -/
def HOLD_DURATION_MS : ℚ := 1200

/-- `WAVE_SPEED_DEFAULT = 8`. -/
def WAVE_SPEED_DEFAULT : ℚ := 8

/-- `clamp(value, min, max) = Math.min(Math.max(value, min), max)`. -/
def clamp (value lo hi : ℚ) : ℚ :=
  min (max value lo) hi

/-- The controller state: the React state fields plus the refs that the
per-frame loop reads and writes.  `rotationPending` models
`correctTimeoutRef.current !== null` (a rotation timeout is scheduled). -/
structure PitchState where
  status : Status
  ringDirection : RingDirection
  lockProgress : ℚ
  isLocked : Bool
  waveSpeed : ℚ
  centsOffset : Option ℚ
  detectedNote : String
  voter : NoteStabilityVoter
  lockStart : Option ℚ
  targetNote : ℤ
  rotationPending : Bool
  isListening : Bool
  deriving DecidableEq

/-- One animation frame, as seen after the pure note-mapper stage:
`detected = none` when `pitchDetector.do` returned no positive frequency,
and `detected = some (midi, centsOff)` where `midi = frequencyToMidi freq`
and `centsOff = 1200 * log2(freq / midiToFrequency target)` otherwise.
`midiToFrequency` of any note is strictly positive, so `centsOff` is a
finite real whenever the frequency is present; the `Number.isFinite`
fallbacks of the source are therefore never taken and are not modelled. -/
structure Frame where
  now : ℚ
  detected : Option (ℤ × ℚ)
  deriving DecidableEq

/-- `resetLock`: clear the lock-start ref, the progress and the flag. -/
def resetLock (s : PitchState) : PitchState :=
  { s with lockStart := none, lockProgress := 0, isLocked := false }

/-- One pass of `detectLoop` over a single frame.  The `isLocked` read in
`progress >= 1 && !isLocked` is the React state captured by the running
closure; on every reachable state it agrees with the current flag (once
locked, a rotation is pending and this branch is unreachable until the
rotation resets the flag), so it is modelled as the current state field. -/
def detectFrame (s : PitchState) (f : Frame) : PitchState :=
  match f.detected with
  | none =>
      { resetLock s with
          status := Status.noPitch
          detectedNote := ""
          ringDirection := RingDirection.neutral
          waveSpeed := WAVE_SPEED_DEFAULT
          centsOffset := none }
  | some (midi, centsOff) =>
      let nextDirection : RingDirection :=
        if |centsOff| ≤ PERFECT_CENTS then RingDirection.perfect
        else if centsOff < 0 then RingDirection.flat
        else RingDirection.sharp
      let s1 :=
        if s.rotationPending then s
        else
          let nextWaveSpeed := clamp (WAVE_SPEED_DEFAULT - centsOff / 100 * 2) 4 10
          { s with
              ringDirection := nextDirection
              waveSpeed :=
                if |s.waveSpeed - nextWaveSpeed| < 1/5 then s.waveSpeed
                else nextWaveSpeed
              centsOffset :=
                match s.centsOffset with
                | some prev =>
                    if |prev - centsOff| < 1/2 then some prev else some centsOff
                | none => some centsOff }
      let va := addDetection s1.voter (some midi)
      let s2 := { s1 with voter := va.1 }
      match va.2 with
      | some stable =>
          let s3 := { s2 with detectedNote := midiToNoteName stable }
          if s3.rotationPending then s3
          else if stable = s3.targetNote ∧ |centsOff| ≤ PERFECT_CENTS then
            let lockStart := s3.lockStart.getD f.now
            let progress := min ((f.now - lockStart) / HOLD_DURATION_MS) 1
            let s4 :=
              { s3 with
                  status := Status.listening
                  lockStart := some lockStart
                  lockProgress :=
                    if |s3.lockProgress - progress| < 1/100 then s3.lockProgress
                    else progress }
            if 1 ≤ progress ∧ s4.isLocked = false then
              { s4 with
                  isLocked := true
                  status := Status.correct
                  lockProgress := 1
                  rotationPending := true }
            else s4
          else
            { resetLock s3 with status := Status.tryAgain }
      | none =>
          { resetLock s2 with status := Status.listening }

/-- `resetForTargetChange(nextStatus)`: reset voter, displays and lock, and
re-derive the status (`nextStatus ?? (isListening ? "listening" : "idle")`). -/
def resetForTargetChange (s : PitchState) (nextStatus : Option Status) :
    PitchState :=
  { resetLock s with
      voter := reset s.voter
      detectedNote := ""
      ringDirection := RingDirection.neutral
      waveSpeed := WAVE_SPEED_DEFAULT
      centsOffset := none
      status :=
        nextStatus.getD (if s.isListening then Status.listening else Status.idle) }

/-- `applyTargetChange(nextTarget, nextStatus)`: replace the target
(the external `onTargetChange` callback is outside the model) and reset. -/
def applyTargetChange (s : PitchState) (nextTarget : ℤ)
    (nextStatus : Option Status) : PitchState :=
  resetForTargetChange { s with targetNote := nextTarget } nextStatus

/-- `setTargetFromUser(nextTarget, nextStatus)`: cancel a pending rotation
timeout, then apply the target change. -/
def setTargetFromUser (s : PitchState) (nextTarget : ℤ)
    (nextStatus : Option Status) : PitchState :=
  applyTargetChange { s with rotationPending := false } nextTarget nextStatus

/-- The scheduled rotation callback firing: pick the new target (the random
draw is the parameter `r`), apply it with status `"listening"`, and clear
the timeout ref. -/
def fireRotation (s : PitchState) (range : OctaveRange) (r : ℚ) : PitchState :=
  { applyTargetChange s (randomTargetNote range r) (some Status.listening) with
      rotationPending := false }

/-- Folding `detectFrame` over a list of frames. -/
def runFrames (s : PitchState) (fs : List Frame) : PitchState :=
  fs.foldl detectFrame s

/-- A state in which the voter window is already full of the target note 60
and no lock has started: the app configuration (capacity 10, threshold 0.7)
with a fresh lock session. -/
def readyState : PitchState :=
  { status := Status.listening
    ringDirection := RingDirection.neutral
    lockProgress := 0
    isLocked := false
    waveSpeed := 8
    centsOffset := none
    detectedNote := ""
    voter := ⟨List.replicate 10 (some 60), 10, 7/10⟩
    lockStart := none
    targetNote := 60
    rotationPending := false
    isListening := true }

/-- `readyState` one frame earlier: nine window entries, so the tenth
detection is the first stable one. -/
def warmupState : PitchState :=
  { readyState with voter := ⟨List.replicate 9 (some 60), 10, 7/10⟩ }

/-- The state right after a completed lock: status "correct", progress 1,
locked, and a rotation delay pending. -/
def lockedState : PitchState :=
  { readyState with
      status := Status.correct
      ringDirection := RingDirection.perfect
      lockProgress := 1
      isLocked := true
      centsOffset := some 0
      detectedNote := "C4"
      lockStart := some 0
      rotationPending := true }

/-- `lockedState` with a scrambled window (nine distinct notes), so that the
next detection is not stable. -/
def scrambledPendingState : PitchState :=
  { lockedState with
      voter := ⟨[some 50, some 51, some 52, some 53, some 54, some 55,
        some 56, some 57, some 58], 10, 7/10⟩ }

/-- The invariant maintained by a continuously matching run: the window
stays full of the target, the lock-start stays at the first matching
timestamp `τ0`, and at current time `τ` the state is locked with progress 1
exactly when `HOLD_DURATION_MS` has elapsed, and otherwise is listening
with the stored progress within `1/100` below the exact fraction. -/
def LockInv (t : ℤ) (τ0 τ : ℚ) (s : PitchState) : Prop :=
  s.voter = ⟨List.replicate 10 (some t), 10, 7/10⟩ ∧
  s.targetNote = t ∧
  s.lockStart = some τ0 ∧
  (if HOLD_DURATION_MS ≤ τ - τ0 then
      s.status = Status.correct ∧ s.isLocked = true ∧ s.lockProgress = 1 ∧
        s.rotationPending = true
    else
      s.status = Status.listening ∧ s.isLocked = false ∧
        s.rotationPending = false ∧
        (τ - τ0) / HOLD_DURATION_MS - 1/100 < s.lockProgress ∧
        s.lockProgress ≤ (τ - τ0) / HOLD_DURATION_MS)

/-! ## C6: the `setTargetFromUser` reset contract -/

/-- C6: for every target note `n` and optional status, `setTargetFromUser`
cancels any pending rotation delay, replaces the target with `n`, empties
the voter window, resets the lock state (`lockProgress` 0, `isLocked`
false, no lock-start timestamp), sets `ringDirection` to neutral, the
detected-note display to `""` and the cents offset to `null`, and sets the
status to the given one, else to "listening" if capture is active and
"idle" if not. -/
theorem setTargetFromUser_resets (s : PitchState) (n : ℤ) (os : Option Status) :
    (setTargetFromUser s n os).rotationPending = false ∧
    (setTargetFromUser s n os).targetNote = n ∧
    (setTargetFromUser s n os).voter.window = [] ∧
    (setTargetFromUser s n os).lockProgress = 0 ∧
    (setTargetFromUser s n os).isLocked = false ∧
    (setTargetFromUser s n os).lockStart = none ∧
    (setTargetFromUser s n os).ringDirection = RingDirection.neutral ∧
    (setTargetFromUser s n os).detectedNote = "" ∧
    (setTargetFromUser s n os).centsOffset = none ∧
    (setTargetFromUser s n os).status =
      os.getD (if s.isListening then Status.listening else Status.idle) := by
  simp [setTargetFromUser, applyTargetChange, resetForTargetChange, resetLock,
    reset]

/-! ## C7: `frequencyToMidi` -/

/-- C7: for every frequency `f`, `frequencyToMidi f` equals
`round (69 + 12 * log2 (f / 440))` when `f > 0`, and the explicit sentinel
`-1` (an integer marker, not a NaN) when `f ≤ 0`. -/
theorem frequencyToMidi_spec (f : ℝ) :
    (f ≤ 0 → frequencyToMidi f = -1) ∧
    (0 < f → frequencyToMidi f = round ((69 : ℝ) + 12 * Real.logb 2 (f / 440))) := by
  constructor
  · intro h
    simp [frequencyToMidi, h]
  · intro h
    simp [frequencyToMidi, not_le.mpr h]

/-- Witness for C7 at `f = 0` and `f = 440`. -/
theorem frequencyToMidi_spec_witness :
    frequencyToMidi 0 = -1 ∧
    frequencyToMidi 440 = round ((69 : ℝ) + 12 * Real.logb 2 (440 / 440)) :=
  ⟨(frequencyToMidi_spec 0).1 le_rfl, (frequencyToMidi_spec 440).2 (by norm_num)⟩

/-! ## C8: `midiToNoteName` -/

/-- C8: for every note in `[0, 127]`, `midiToNoteName` returns the entry at
index `note % 12` of the fixed chromatic table concatenated with the octave
`⌊note / 12⌋ - 1` (so `69 ↦ "A4"`, `60 ↦ "C4"`, `61 ↦ "C#4"`); outside
`[0, 127]` it returns the empty string. -/
theorem midiToNoteName_spec (note : ℤ) :
    (0 ≤ note → note ≤ 127 →
      midiToNoteName note =
        NOTE_NAMES.getD (note % 12).toNat "" ++ toString (note / 12 - 1)) ∧
    (note < 0 ∨ 127 < note → midiToNoteName note = "") ∧
    midiToNoteName 69 = "A4" ∧ midiToNoteName 60 = "C4" ∧
    midiToNoteName 61 = "C#4" := by
  refine ⟨?_, ?_, by decide, by decide, by decide⟩
  · intro h0 h127
    rw [midiToNoteName, if_neg]
    push_neg
    exact ⟨h0, h127⟩
  · intro h
    rw [midiToNoteName, if_pos h]

/-- Witness for C8 at `note = 69` and `note = 128`. -/
theorem midiToNoteName_spec_witness :
    midiToNoteName 69 = "A4" ∧ midiToNoteName 128 = "" :=
  ⟨(midiToNoteName_spec 69).2.2.1,
   (midiToNoteName_spec 128).2.1 (Or.inr (by norm_num))⟩

/-! ## C1: `randomTargetNote` -/

/-- C1: for every octave range and every uniform draw `r ∈ [0,1)`,
`randomTargetNote` returns an integer inside the inclusive interval
`[start*12, end*12 + 11]`, and the draw preimage of each note `k` in that
interval is the half-open interval
`[(k - lo)/N, (k - lo + 1)/N)` of width `1/N` — the same width for every
`k`, so the selection is uniform over all `12 * (end - start + 1)`
chromatic notes.  The function takes no match-history argument at all, so
the selection is independent of match history by construction. -/
theorem randomTargetNote_uniform (range : OctaveRange) (r : ℚ)
    (hr0 : 0 ≤ r) (hr1 : r < 1) (hse : range.start ≤ range.«end») :
    (range.start * 12 ≤ randomTargetNote range r ∧
      randomTargetNote range r ≤ range.«end» * 12 + 11) ∧
    (∀ k : ℤ, range.start * 12 ≤ k → k ≤ range.«end» * 12 + 11 →
      (randomTargetNote range r = k ↔
        ((k : ℚ) - range.start * 12) / (((range.«end» * 12 + 11) - range.start * 12 + 1 : ℤ) : ℚ) ≤ r ∧
          r < ((k : ℚ) - range.start * 12 + 1) / (((range.«end» * 12 + 11) - range.start * 12 + 1 : ℤ) : ℚ))) := by
  have hN : (0 : ℤ) < (range.«end» * 12 + 11) - range.start * 12 + 1 := by omega
  have hNQ : (0 : ℚ) < (((range.«end» * 12 + 11) - range.start * 12 + 1 : ℤ) : ℚ) := by
    exact_mod_cast hN
  constructor
  · constructor
    · have h : (0 : ℤ) ≤ ⌊r * (((range.«end» * 12 + 11) - range.start * 12 + 1 : ℤ) : ℚ)⌋ :=
        Int.floor_nonneg.mpr (mul_nonneg hr0 hNQ.le)
      simp only [randomTargetNote]
      omega
    · have h : ⌊r * (((range.«end» * 12 + 11) - range.start * 12 + 1 : ℤ) : ℚ)⌋ <
          (range.«end» * 12 + 11) - range.start * 12 + 1 := by
        rw [Int.floor_lt]
        calc r * (((range.«end» * 12 + 11) - range.start * 12 + 1 : ℤ) : ℚ)
            < 1 * (((range.«end» * 12 + 11) - range.start * 12 + 1 : ℤ) : ℚ) := by
              exact mul_lt_mul_of_pos_right hr1 hNQ
          _ = _ := by rw [one_mul]
      simp only [randomTargetNote]
      omega
  · intro k hk1 hk2
    simp only [randomTargetNote]
    constructor
    · intro h
      have hfloor : ⌊r * (((range.«end» * 12 + 11) - range.start * 12 + 1 : ℤ) : ℚ)⌋ =
          k - range.start * 12 := by omega
      have := (Int.floor_eq_iff (α := ℚ)).mp hfloor
      obtain ⟨hlo, hhi⟩ := this
      constructor
      · rw [div_le_iff₀ hNQ]
        push_cast at hlo ⊢
        linarith
      · rw [lt_div_iff₀ hNQ]
        push_cast at hhi ⊢
        linarith
    · intro ⟨hlo, hhi⟩
      have hfloor : ⌊r * (((range.«end» * 12 + 11) - range.start * 12 + 1 : ℤ) : ℚ)⌋ =
          k - range.start * 12 := by
        rw [Int.floor_eq_iff (α := ℚ)]
        rw [div_le_iff₀ hNQ] at hlo
        rw [lt_div_iff₀ hNQ] at hhi
        constructor
        · push_cast at hlo ⊢
          linarith
        · push_cast at hhi ⊢
          linarith
      omega

/-- Witness for C1 at range `{start := 4, end := 4}`, `r = 1/2`. -/
theorem randomTargetNote_uniform_witness :
    (OctaveRange.start ⟨4, 4⟩ * 12 ≤ randomTargetNote ⟨4, 4⟩ (1/2) ∧
      randomTargetNote ⟨4, 4⟩ (1/2) ≤ OctaveRange.«end» ⟨4, 4⟩ * 12 + 11) :=
  (randomTargetNote_uniform ⟨4, 4⟩ (1/2) (by norm_num) (by norm_num)
    (by norm_num)).1

/-! ## C9: the approximate round trip -/

/-- C9: for every frequency `f > 0`, the round trip
`midiToFrequency (frequencyToMidi f)` is within one semitone's rounding
error of `f`: rounding to the nearest MIDI note moves the pitch by at most
half a semitone, i.e. the result lies in
`[f * 2^(-1/24), f * 2^(1/24)]`. -/
theorem midiToFrequency_frequencyToMidi_roundTrip (f : ℝ) (hf : 0 < f) :
    f * 2 ^ (-(1 : ℝ)/24) ≤ midiToFrequency (frequencyToMidi f) ∧
    midiToFrequency (frequencyToMidi f) ≤ f * 2 ^ ((1 : ℝ)/24) := by
  have h2 : (0 : ℝ) < 2 := by norm_num
  have hne : ¬ f ≤ 0 := not_le.mpr hf
  set x : ℝ := 69 + 12 * Real.logb 2 (f / 440) with hx
  have hmidi : frequencyToMidi f = round x := by
    rw [frequencyToMidi, if_neg hne]
  have hdiv : (0 : ℝ) < f / 440 := div_pos hf (by norm_num)
  have hfx : (440 : ℝ) * 2 ^ ((x - 69) / 12) = f := by
    have hlogb : (x - 69) / 12 = Real.logb 2 (f / 440) := by
      rw [hx]; ring
    rw [hlogb, Real.rpow_logb h2 (by norm_num) hdiv]
    field_simp
  have hsplit : midiToFrequency (frequencyToMidi f)
      = f * 2 ^ ((((round x : ℤ) : ℝ) - x) / 12) := by
    rw [hmidi, midiToFrequency, ← hfx, mul_assoc, ← Real.rpow_add h2]
    have harith : (x - 69) / 12 + (((round x : ℤ) : ℝ) - x) / 12
        = (((round x : ℤ) : ℝ) - 69) / 12 := by ring
    rw [harith]
  have hround : |x - ((round x : ℤ) : ℝ)| ≤ 1 / 2 := abs_sub_round x
  have habs : |(((round x : ℤ) : ℝ) - x) / 12| ≤ 1 / 24 := by
    rw [abs_div, abs_sub_comm]
    rw [abs_of_pos (by norm_num : (0:ℝ) < 12)]
    rw [div_le_div_iff₀ (by norm_num) (by norm_num)]
    linarith
  rw [hsplit]
  have hlo : -(1 : ℝ)/24 ≤ (((round x : ℤ) : ℝ) - x) / 12 := by
    have := abs_le.mp habs
    linarith [this.1]
  have hhi : (((round x : ℤ) : ℝ) - x) / 12 ≤ (1 : ℝ)/24 := by
    exact (abs_le.mp habs).2
  constructor
  · exact mul_le_mul_of_nonneg_left
      (Real.rpow_le_rpow_of_exponent_le (by norm_num) hlo) hf.le
  · exact mul_le_mul_of_nonneg_left
      (Real.rpow_le_rpow_of_exponent_le (by norm_num) hhi) hf.le

/-- Witness for C9 at `f = 440`. -/
theorem midiToFrequency_frequencyToMidi_roundTrip_witness :
    (440 : ℝ) * 2 ^ (-(1 : ℝ)/24) ≤ midiToFrequency (frequencyToMidi 440) ∧
    midiToFrequency (frequencyToMidi 440) ≤ 440 * 2 ^ ((1 : ℝ)/24) :=
  midiToFrequency_frequencyToMidi_roundTrip 440 (by norm_num)

/-! ## Helper lemmas for the voter -/

theorem le_foldl_max (L : List ℕ) (i : ℕ) : i ≤ L.foldl max i := by
  induction L generalizing i with
  | nil => exact le_refl i
  | cons b L ih =>
      calc i ≤ max i b := le_max_left i b
        _ ≤ L.foldl max (max i b) := ih (max i b)
        _ = (b :: L).foldl max i := rfl

theorem foldl_max_of_mem {L : List ℕ} {a : ℕ} (i : ℕ) (h : a ∈ L) :
    a ≤ L.foldl max i := by
  induction L generalizing i with
  | nil => cases h
  | cons b L ih =>
      rcases List.mem_cons.mp h with hb | hL
      · subst hb
        calc a ≤ max i a := le_max_right i a
          _ ≤ L.foldl max (max i a) := le_foldl_max L (max i a)
      · exact ih (max i b) hL

theorem foldl_max_mem (L : List ℕ) (i : ℕ) :
    L.foldl max i ∈ L ∨ L.foldl max i = i := by
  induction L generalizing i with
  | nil => exact Or.inr rfl
  | cons b L ih =>
      rcases ih (max i b) with h | h
      · exact Or.inl (List.mem_cons_of_mem b h)
      · show L.foldl max (max i b) ∈ b :: L ∨ L.foldl max (max i b) = i
        rcases max_choice i b with hm | hm
        · rw [h, hm]
          exact Or.inr rfl
        · rw [h, hm]
          exact Or.inl (List.mem_cons_self b L)

theorem count_le_maxCount {l : List ℤ} {x : ℤ} (h : x ∈ l) :
    l.count x ≤ maxCount l :=
  foldl_max_of_mem 0 (List.mem_map.mpr ⟨x, h, rfl⟩)

theorem maxCount_attained {l : List ℤ} (h : l ≠ []) :
    ∃ x ∈ l, l.count x = maxCount l := by
  rcases foldl_max_mem (l.map fun n => l.count n) 0 with hm | hm
  · obtain ⟨x, hx, hcx⟩ := List.mem_map.mp hm
    exact ⟨x, hx, hcx⟩
  · obtain ⟨z, l', rfl⟩ := List.exists_cons_of_ne_nil h
    have h1 : 0 < (z :: l').count z := List.count_pos_iff.mpr (List.mem_cons_self z l')
    have h2 : (z :: l').count z ≤ maxCount (z :: l') :=
      count_le_maxCount (List.mem_cons_self z l')
    rw [maxCount] at h2 ⊢
    omega

theorem one_le_maxCount {l : List ℤ} (h : l ≠ []) : 1 ≤ maxCount l := by
  obtain ⟨x, hx, hcx⟩ := maxCount_attained h
  have := List.count_pos_iff.mpr hx
  omega

theorem tally_concat (l : List ℤ) (a : ℤ) :
    tally (l ++ [a]) = insertTally (tally l) a := by
  simp [tally, List.foldl_append]

theorem insertTally_cond (acc : List (ℤ × ℕ)) (q : ℤ) :
    (acc.any fun p => p.1 = q) = true ↔ q ∈ acc.map Prod.fst := by
  simp only [List.any_eq_true, List.mem_map, decide_eq_true_eq]

theorem insertTally_fst (acc : List (ℤ × ℕ)) (q : ℤ) :
    (insertTally acc q).map Prod.fst =
      if q ∈ acc.map Prod.fst then acc.map Prod.fst
      else acc.map Prod.fst ++ [q] := by
  by_cases h : q ∈ acc.map Prod.fst
  · rw [insertTally, if_pos ((insertTally_cond acc q).mpr h), if_pos h,
      List.map_map]
    refine List.map_congr_left ?_
    intro p _
    by_cases hp : p.1 = q
    · simp [hp]
    · simp [hp]
  · rw [insertTally,
      if_neg fun hc => h ((insertTally_cond acc q).mp hc), if_neg h,
      List.map_append]
    simp

theorem mem_tally_fst (l : List ℤ) (a : ℤ) :
    a ∈ (tally l).map Prod.fst ↔ a ∈ l := by
  induction l using List.reverseRecOn with
  | nil => simp [tally]
  | append_singleton l q ih =>
      rw [tally_concat, insertTally_fst]
      by_cases hq : q ∈ (tally l).map Prod.fst
      · rw [if_pos hq]
        constructor
        · intro h
          exact List.mem_append_left [q] (ih.mp h)
        · intro h
          rcases List.mem_append.mp h with h | h
          · exact ih.mpr h
          · rw [List.mem_singleton.mp h]
            exact hq
      · rw [if_neg hq]
        simp [ih]

theorem tally_count (l : List ℤ) : ∀ p ∈ tally l, p.2 = l.count p.1 := by
  induction l using List.reverseRecOn with
  | nil => simp [tally]
  | append_singleton l q ih =>
      intro p hp
      rw [tally_concat] at hp
      by_cases hq : q ∈ (tally l).map Prod.fst
      · rw [insertTally, if_pos ((insertTally_cond (tally l) q).mpr hq)] at hp
        obtain ⟨p0, hp0, hupd⟩ := List.mem_map.mp hp
        by_cases hfst : p0.1 = q
        · rw [if_pos hfst] at hupd
          subst hupd
          have := ih p0 hp0
          simp only [List.count_append, List.count_singleton]
          rw [hfst]
          simp [this, hfst]
        · rw [if_neg hfst] at hupd
          subst hupd
          have := ih p0 hp0
          simp only [List.count_append, List.count_singleton]
          simp only [this]
          have hne : ¬ (q = p0.1) := fun hc => hfst hc.symm
          simp [hne]
      · rw [insertTally, if_neg] at hp
        · rcases List.mem_append.mp hp with hmem | hmem
          · have hfst : p.1 ≠ q := by
              intro hc
              exact hq (hc ▸ List.mem_map.mpr ⟨p, hmem, rfl⟩)
            have := ih p hmem
            simp only [List.count_append, List.count_singleton]
            simp only [this]
            have hne : ¬ (q = p.1) := fun hc => hfst hc.symm
            simp [hne]
          · rw [List.mem_singleton.mp hmem]
            have hnotin : q ∉ l := fun hc => hq ((mem_tally_fst l q).mpr hc)
            simp [List.count_append, List.count_singleton,
              List.count_eq_zero_of_not_mem hnotin]
        · intro hc
          exact hq ((insertTally_cond (tally l) q).mp hc)

theorem tally_pairwise (l : List ℤ) :
    ((tally l).map Prod.fst).Pairwise
      (fun a b => l.indexOf a < l.indexOf b) := by
  induction l using List.reverseRecOn with
  | nil => simp [tally]
  | append_singleton l q ih =>
      rw [tally_concat, insertTally_fst]
      by_cases hq : q ∈ (tally l).map Prod.fst
      · rw [if_pos hq]
        refine ih.imp_of_mem ?_
        intro a b ha hb hab
        rw [List.indexOf_append_of_mem ((mem_tally_fst l a).mp ha),
          List.indexOf_append_of_mem ((mem_tally_fst l b).mp hb)]
        exact hab
      · rw [if_neg hq]
        have hqnl : q ∉ l := fun hc => hq ((mem_tally_fst l q).mpr hc)
        rw [List.pairwise_append]
        refine ⟨ih.imp_of_mem ?_, List.pairwise_singleton _ q, ?_⟩
        · intro a b ha hb hab
          rw [List.indexOf_append_of_mem ((mem_tally_fst l a).mp ha),
            List.indexOf_append_of_mem ((mem_tally_fst l b).mp hb)]
          exact hab
        · intro a ha b hb
          rw [List.mem_singleton.mp hb]
          have hal : a ∈ l := (mem_tally_fst l a).mp ha
          rw [List.indexOf_append_of_mem hal,
            List.indexOf_append_of_not_mem hqnl, List.indexOf_cons_self]
          calc l.indexOf a < l.length := List.indexOf_lt_length.mpr hal
            _ = l.length + 0 := by omega

theorem pickMax_concat (ps : List (ℤ × ℕ)) (q : ℤ × ℕ) :
    pickMax (ps ++ [q]) =
      if q.2 > (pickMax ps).2 then (some q.1, q.2) else pickMax ps := by
  simp [pickMax, List.foldl_append]

theorem pickMax_spec (ps : List (ℤ × ℕ)) :
    (pickMax ps = (none, 0) ∧ ∀ p ∈ ps, p.2 = 0) ∨
    (∃ l1 x c l2, ps = l1 ++ (x, c) :: l2 ∧ pickMax ps = (some x, c) ∧
      (∀ p ∈ l1, p.2 < c) ∧ (∀ p ∈ ps, p.2 ≤ c)) := by
  induction ps using List.reverseRecOn with
  | nil => exact Or.inl ⟨rfl, by simp⟩
  | append_singleton ps q ih =>
      rcases ih with ⟨hpm, hzero⟩ | ⟨l1, x, c, l2, hsplit, hpm, hlt, hle⟩
      · by_cases hq : q.2 > (pickMax ps).2
        · refine Or.inr ⟨ps, q.1, q.2, [], by simp, ?_, ?_, ?_⟩
          · rw [pickMax_concat, if_pos hq]
          · intro p hp
            rw [hpm] at hq
            have := hzero p hp
            omega
          · intro p hp
            rcases List.mem_append.mp hp with hp | hp
            · have := hzero p hp
              omega
            · rw [List.mem_singleton.mp hp]
        · refine Or.inl ⟨?_, ?_⟩
          · rw [pickMax_concat, if_neg hq, hpm]
          · intro p hp
            rcases List.mem_append.mp hp with hp | hp
            · exact hzero p hp
            · rw [List.mem_singleton.mp hp]
              rw [hpm] at hq
              omega
      · by_cases hq : q.2 > (pickMax ps).2
        · refine Or.inr ⟨ps, q.1, q.2, [], by simp, ?_, ?_, ?_⟩
          · rw [pickMax_concat, if_pos hq]
          · intro p hp
            rw [hpm] at hq
            have := hle p hp
            omega
          · intro p hp
            rcases List.mem_append.mp hp with hp | hp
            · have := hle p hp
              rw [hpm] at hq
              omega
            · rw [List.mem_singleton.mp hp]
        · refine Or.inr ⟨l1, x, c, l2 ++ [q], ?_, ?_, hlt, ?_⟩
          · rw [hsplit]
            simp
          · rw [pickMax_concat, if_neg hq, hpm]
          · intro p hp
            rcases List.mem_append.mp hp with hp | hp
            · exact hle p hp
            · rw [List.mem_singleton.mp hp]
              rw [hpm] at hq
              omega

theorem indexOf_le_of_getElem {l : List ℤ} {a : ℤ} {i : ℕ}
    (hi : i < l.length) (h : l[i] = a) : l.indexOf a ≤ i := by
  induction l generalizing i with
  | nil => cases hi
  | cons b l ih =>
      cases i with
      | zero =>
          rw [List.getElem_cons_zero] at h
          rw [List.indexOf_cons_eq l h]
      | succ i =>
          by_cases hb : b = a
          · rw [List.indexOf_cons_eq l hb]
            omega
          · rw [List.indexOf_cons_ne l hb]
            have hi' : i < l.length := by
              rw [List.length_cons] at hi
              omega
            rw [List.getElem_cons_succ] at h
            have := ih hi' h
            omega

theorem not_mem_take_indexOf (l : List ℤ) (a : ℤ) :
    a ∉ l.take (l.indexOf a) := by
  induction l with
  | nil => simp
  | cons b l ih =>
      by_cases hb : b = a
      · rw [List.indexOf_cons_eq l hb]
        simp
      · rw [List.indexOf_cons_ne l hb, List.take_succ_cons]
        intro hc
        rcases List.mem_cons.mp hc with hc | hc
        · exact hb hc.symm
        · exact ih hc

theorem pickMax_tally (valid : List ℤ) (hne : valid ≠ []) :
    pickMax (tally valid) =
      (valid.find? (fun n => decide (valid.count n = maxCount valid)),
        maxCount valid) := by
  have hkeys : ∀ p ∈ tally valid, p.1 ∈ valid := fun p hp =>
    (mem_tally_fst valid p.1).mp (List.mem_map.mpr ⟨p, hp, rfl⟩)
  have hcount := tally_count valid
  have hpos : ∀ p ∈ tally valid, 1 ≤ p.2 := by
    intro p hp
    rw [hcount p hp]
    exact List.count_pos_iff.mpr (hkeys p hp)
  obtain ⟨z, l', hzl⟩ := List.exists_cons_of_ne_nil hne
  have hzv : z ∈ valid := by rw [hzl]; exact List.mem_cons_self z l'
  have hzkeys : z ∈ (tally valid).map Prod.fst := (mem_tally_fst valid z).mpr hzv
  obtain ⟨pz, hpz, hpzf⟩ := List.mem_map.mp hzkeys
  rcases pickMax_spec (tally valid) with ⟨_, hzero⟩ | hspec
  · have h1 := hpos pz hpz
    have h0 := hzero pz hpz
    omega
  obtain ⟨T1, x, c, T2, hsplit, hpm, hlt, hle⟩ := hspec
  have hxc_mem : (x, c) ∈ tally valid := by
    rw [hsplit]
    exact List.mem_append_right T1 (List.mem_cons_self _ T2)
  have hcx : c = valid.count x := hcount _ hxc_mem
  have hxv : x ∈ valid := hkeys _ hxc_mem
  have hM : c = maxCount valid := by
    refine le_antisymm (hcx ▸ count_le_maxCount hxv) ?_
    obtain ⟨y, hyv, hcy⟩ := maxCount_attained hne
    obtain ⟨py, hpy, hpyf⟩ :=
      List.mem_map.mp ((mem_tally_fst valid y).mpr hyv)
    have h1 : py.2 = valid.count y := by rw [hcount py hpy, hpyf]
    have h2 := hle py hpy
    omega
  have hfind : valid.find?
      (fun n => decide (valid.count n = maxCount valid)) = some x := by
    rw [List.find?_eq_some]
    refine ⟨by simp [← hcx, hM], ?_⟩
    have hj : valid.indexOf x < valid.length := List.indexOf_lt_length.mpr hxv
    have hdropj : valid.drop (valid.indexOf x)
        = x :: valid.drop (valid.indexOf x + 1) := by
      rw [List.drop_eq_getElem_cons hj, List.getElem_indexOf hj]
    refine ⟨valid.take (valid.indexOf x), valid.drop (valid.indexOf x + 1),
      ?_, ?_⟩
    · rw [← hdropj, List.take_append_drop]
    · intro y hy
      simp only [Bool.not_eq_true', decide_eq_false_iff_not]
      intro hcyM
      have hyv : y ∈ valid := List.take_subset _ _ hy
      obtain ⟨py, hpy, hpyf⟩ :=
        List.mem_map.mp ((mem_tally_fst valid y).mpr hyv)
      have hpyc : py.2 = valid.count y := by rw [hcount py hpy, hpyf]
      have hysplit : py ∈ T1 ++ (x, c) :: T2 := hsplit ▸ hpy
      rcases List.mem_append.mp hysplit with hyT1 | hyT2
      · have := hlt py hyT1
        omega
      rcases List.mem_cons.mp hyT2 with hyx | hyT2
      · have hyx' : y = x := by rw [← hpyf, hyx]
        exact not_mem_take_indexOf valid x (hyx' ▸ hy)
      · have hpair := tally_pairwise valid
        have hkeyssplit : (tally valid).map Prod.fst
            = T1.map Prod.fst ++ x :: T2.map Prod.fst := by
          rw [hsplit, List.map_append, List.map_cons]
        rw [hkeyssplit] at hpair
        have hmid := (List.pairwise_append.mp hpair).2.1
        have hR : valid.indexOf x < valid.indexOf y := by
          have := (List.pairwise_cons.mp hmid).1 y
            (hpyf ▸ List.mem_map.mpr ⟨py, hyT2, rfl⟩)
          exact this
        obtain ⟨i, hi, hget⟩ := List.mem_iff_getElem.mp hy
        have hitake : i < valid.indexOf x := by
          have := hi
          rw [List.length_take] at this
          omega
        have hvj : i < valid.length := lt_trans hitake hj
        have hgetv : valid[i] = y := by
          rw [← hget, List.getElem_take]
        have := indexOf_le_of_getElem hvj hgetv
        omega
  rw [hpm, hfind, hM]

/-- The updated voter returned by `addDetection`: the pushed window with the
oldest entry evicted past capacity, with unchanged configuration. -/
theorem addDetection_fst (v : NoteStabilityVoter) (a : Option ℤ) :
    (addDetection v a).1 =
      ⟨if (v.window ++ [a]).length > v.windowSize
          then (v.window ++ [a]).tail else v.window ++ [a],
        v.windowSize, v.threshold⟩ := by
  simp only [addDetection]
  repeat' split
  all_goals rfl

/-- `addDetection` returns "none" while the pushed window is still below
capacity. -/
theorem addDetection_snd_short (v : NoteStabilityVoter) (a : Option ℤ)
    (w2 : List (Option ℤ))
    (hw2 : w2 = if (v.window ++ [a]).length > v.windowSize
        then (v.window ++ [a]).tail else v.window ++ [a])
    (hlen : w2.length < v.windowSize) :
    (addDetection v a).2 = none := by
  subst hw2
  simp only [addDetection]
  rw [if_pos hlen]

/-- `addDetection` returns "none" when every windowed entry is absent. -/
theorem addDetection_snd_empty (v : NoteStabilityVoter) (a : Option ℤ)
    (w2 : List (Option ℤ))
    (hw2 : w2 = if (v.window ++ [a]).length > v.windowSize
        then (v.window ++ [a]).tail else v.window ++ [a])
    (hlen : ¬ w2.length < v.windowSize)
    (hvalid : w2.filterMap id = []) :
    (addDetection v a).2 = none := by
  subst hw2
  simp only [addDetection]
  rw [if_neg hlen, if_pos (by rw [hvalid]; rfl)]

/-- The stable-note output of a full window with at least one valid entry:
the earliest-inserted valid note achieving the maximum occurrence count,
emitted exactly when it clears the threshold. -/
theorem addDetection_snd_stable (v : NoteStabilityVoter) (a : Option ℤ)
    (w2 : List (Option ℤ))
    (hw2 : w2 = if (v.window ++ [a]).length > v.windowSize
        then (v.window ++ [a]).tail else v.window ++ [a])
    (hlen : ¬ w2.length < v.windowSize)
    (hvne : w2.filterMap id ≠ []) :
    (addDetection v a).2 =
      if v.threshold ≤
          (maxCount (w2.filterMap id) : ℚ) / (w2.filterMap id).length then
        (w2.filterMap id).find?
          (fun n => decide
            ((w2.filterMap id).count n = maxCount (w2.filterMap id)))
      else none := by
  subst hw2
  simp only [addDetection]
  set w2 := if (v.window ++ [a]).length > v.windowSize
      then (v.window ++ [a]).tail else v.window ++ [a] with hw2
  set valid := w2.filterMap id with hvaliddef
  have hlv : ¬ valid.length = 0 := by
    intro hc
    exact hvne (List.length_eq_zero.mp hc)
  obtain ⟨x, hxv, hcx⟩ := maxCount_attained hvne
  have hiss : (valid.find?
      (fun n => decide (valid.count n = maxCount valid))).isSome := by
    rw [List.find?_isSome]
    exact ⟨x, hxv, by simp [hcx]⟩
  obtain ⟨y, hy⟩ := Option.isSome_iff_exists.mp hiss
  rw [if_neg hlen, if_neg hlv, pickMax_tally valid hvne]
  dsimp only
  rw [hy]
  dsimp only
  split
  · rfl
  · rfl

/-- FIFO eviction, one step: for a window within capacity, the pushed
window keeps the last `min (n+1) capacity` entries. -/
theorem addDetection_window (v : NoteStabilityVoter) (a : Option ℤ)
    (hcap : 1 ≤ v.windowSize) (hw : v.window.length ≤ v.windowSize) :
    (addDetection v a).1.window
        = (v.window ++ [a]).drop (v.window.length + 1 - v.windowSize) ∧
    (addDetection v a).1.window.length
        = min (v.window.length + 1) v.windowSize := by
  rw [addDetection_fst]
  by_cases h : (v.window ++ [a]).length > v.windowSize
  · rw [if_pos h]
    have hlen : (v.window ++ [a]).length = v.window.length + 1 := by simp
    have heq : v.window.length = v.windowSize := by omega
    constructor
    · have hdd : v.window.length + 1 - v.windowSize = 1 := by omega
      rw [hdd, List.drop_one]
    · rw [List.length_tail, hlen]
      omega
  · rw [if_neg h]
    have hlen : (v.window ++ [a]).length = v.window.length + 1 := by simp
    have hle : v.window.length + 1 ≤ v.windowSize := by omega
    constructor
    · rw [Nat.sub_eq_zero_of_le hle, List.drop_zero]
    · rw [hlen]
      omega

/-- FIFO eviction over a whole run: feeding `l` into a within-capacity
window keeps exactly the last `min (n + |l|) capacity` submitted entries,
oldest evicted first, without touching the configuration. -/
theorem feed_spec (l : List (Option ℤ)) (v : NoteStabilityVoter)
    (hcap : 1 ≤ v.windowSize) (hw : v.window.length ≤ v.windowSize) :
    (feed v l).window
        = (v.window ++ l).drop (v.window.length + l.length - v.windowSize) ∧
    (feed v l).windowSize = v.windowSize ∧
    (feed v l).threshold = v.threshold ∧
    (feed v l).window.length
        = min (v.window.length + l.length) v.windowSize := by
  induction l generalizing v with
  | nil =>
      refine ⟨?_, rfl, rfl, ?_⟩
      · simp [feed, Nat.sub_eq_zero_of_le hw]
      · simp [feed]
        omega
  | cons a l ih =>
      have hstep := addDetection_window v a hcap hw
      have hfst := addDetection_fst v a
      have hws1 : (addDetection v a).1.windowSize = v.windowSize := by
        rw [hfst]
      have hth1 : (addDetection v a).1.threshold = v.threshold := by
        rw [hfst]
      have hcap1 : 1 ≤ (addDetection v a).1.windowSize := by omega
      have hw1 : (addDetection v a).1.window.length
          ≤ (addDetection v a).1.windowSize := by
        rw [hws1, hstep.2]
        omega
      have hfeed : feed v (a :: l) = feed (addDetection v a).1 l := rfl
      obtain ⟨ihw, ihws, ihth, ihlen⟩ := ih (addDetection v a).1 hcap1 hw1
      rw [hfeed]
      refine ⟨?_, by rw [ihws, hws1], by rw [ihth, hth1], ?_⟩
      · rw [ihw, hws1, hstep.2, hstep.1]
        have hd : v.window.length + 1 - v.windowSize
            ≤ (v.window ++ [a]).length := by
          simp only [List.length_append, List.length_singleton]
          omega
        rw [← @List.drop_append_of_le_length _ (v.window ++ [a]) l _ hd, List.drop_drop]
        have harr : (v.window ++ [a]) ++ l = v.window ++ a :: l := by
          rw [List.append_assoc]
          rfl
        rw [harr]
        congr 1
        all_goals
          simp only [List.length_cons]
          omega
      · rw [ihlen, hws1, hstep.2]
        simp [List.length_cons]
        omega

/-! ## C2: the full voter contract -/

/-- C2: for every capacity ≥ 1 and threshold in `(0,1]`, and every sequence
of `addDetection` calls since the last `reset`, the window holds exactly
the last `min (n, capacity)` submitted entries (oldest evicted first); the
last call returns "none" while fewer than `capacity` entries have been
recorded (in particular during the first `capacity - 1` calls after a
reset, whatever came before), or when all windowed entries are absent;
otherwise it returns the note with the highest occurrence count among the
non-absent windowed entries — the earliest-inserted note winning a tie —
exactly when that count divided by the number of non-absent entries reaches
the threshold, and "none" otherwise. -/
theorem addDetection_voter_contract (v : NoteStabilityVoter) (cap : ℕ)
    (th : ℚ) (hcap : 1 ≤ cap) (hth0 : 0 < th) (hth1 : th ≤ 1)
    (hvc : v.windowSize = cap) (hvt : v.threshold = th)
    (pre : List (Option ℤ)) (a : Option ℤ) :
    (addDetection (feed (reset v) pre) a).1.window
        = (pre ++ [a]).drop (pre.length + 1 - cap) ∧
    (pre.length + 1 < cap → (addDetection (feed (reset v) pre) a).2 = none) ∧
    (((pre ++ [a]).drop (pre.length + 1 - cap)).filterMap id = [] →
      (addDetection (feed (reset v) pre) a).2 = none) ∧
    (¬ pre.length + 1 < cap →
      ∀ valid, valid = ((pre ++ [a]).drop (pre.length + 1 - cap)).filterMap id →
      valid ≠ [] →
      (addDetection (feed (reset v) pre) a).2 =
        (if th ≤ (maxCount valid : ℚ) / valid.length then
          valid.find? (fun n => decide (valid.count n = maxCount valid))
        else none)) := by
  have hreset : (reset v).windowSize = cap ∧ (reset v).threshold = th ∧
      (reset v).window = [] := ⟨hvc, hvt, rfl⟩
  obtain ⟨hfw, hfws, hfth, hflen⟩ :=
    feed_spec pre (reset v) (by rw [hreset.1]; exact hcap)
      (by rw [hreset.2.2]; simp)
  rw [hreset.1] at hfws hflen hfw
  rw [hreset.2.1] at hfth
  rw [hreset.2.2] at hfw hflen
  simp only [List.nil_append, List.length_nil, Nat.zero_add] at hfw hflen
  set vp := feed (reset v) pre with hvp
  have hcap' : 1 ≤ vp.windowSize := by rw [hfws]; exact hcap
  have hwlen : vp.window.length ≤ vp.windowSize := by
    rw [hfws, hflen]
    omega
  obtain ⟨hwin, hwinlen⟩ := addDetection_window vp a hcap' hwlen
  have hw2eq : (vp.window ++ [a]).drop (vp.window.length + 1 - vp.windowSize)
      = (pre ++ [a]).drop (pre.length + 1 - cap) := by
    rw [hflen, hfws, hfw]
    have hd : pre.length - cap ≤ pre.length := by omega
    rw [← @List.drop_append_of_le_length _ pre [a] _ hd, List.drop_drop]
    congr 1
    omega
  have hw2def : (addDetection vp a).1.window
      = if (vp.window ++ [a]).length > vp.windowSize
        then (vp.window ++ [a]).tail else vp.window ++ [a] := by
    rw [addDetection_fst]
  have hshortcase : pre.length + 1 < cap → (addDetection vp a).2 = none := by
    intro hshort
    refine addDetection_snd_short vp a ((addDetection vp a).1.window) hw2def ?_
    rw [hwinlen, hfws, hflen]
    omega
  have hlencase : ¬ pre.length + 1 < cap →
      ¬ (addDetection vp a).1.window.length < vp.windowSize := by
    intro hns
    rw [hwinlen, hfws, hflen]
    omega
  refine ⟨hwin.trans hw2eq, hshortcase, ?_, ?_⟩
  · intro hemp
    by_cases hshort : pre.length + 1 < cap
    · exact hshortcase hshort
    · refine addDetection_snd_empty vp a ((addDetection vp a).1.window)
        hw2def (hlencase hshort) ?_
      rw [hwin.trans hw2eq]
      exact hemp
  · intro hnshort valid hvdef hvne
    have hvne2 : ((addDetection vp a).1.window).filterMap id ≠ [] := by
      rw [hwin.trans hw2eq, ← hvdef]
      exact hvne
    have hstable := addDetection_snd_stable vp a ((addDetection vp a).1.window)
      hw2def (hlencase hnshort) hvne2
    rw [hstable, hfth, hwin.trans hw2eq, ← hvdef]

/-- Witness for C2: capacity 2, threshold `1/2`, two detections of note 5
after a reset. -/
theorem addDetection_voter_contract_witness :
    (addDetection (feed (reset ⟨[], 2, 1/2⟩) [some 5]) (some 5)).1.window
        = (([some 5] ++ [some 5] : List (Option ℤ))).drop
            (([some 5] : List (Option ℤ)).length + 1 - 2) ∧
    (([some 5] : List (Option ℤ)).length + 1 < 2 →
      (addDetection (feed (reset ⟨[], 2, 1/2⟩) [some 5]) (some 5)).2 = none) ∧
    (((([some 5] ++ [some 5] : List (Option ℤ))).drop
        (([some 5] : List (Option ℤ)).length + 1 - 2)).filterMap id = [] →
      (addDetection (feed (reset ⟨[], 2, 1/2⟩) [some 5]) (some 5)).2 = none) ∧
    (¬ ([some 5] : List (Option ℤ)).length + 1 < 2 →
      ∀ valid, valid = ((([some 5] ++ [some 5] : List (Option ℤ))).drop
          (([some 5] : List (Option ℤ)).length + 1 - 2)).filterMap id →
      valid ≠ [] →
      (addDetection (feed (reset ⟨[], 2, 1/2⟩) [some 5]) (some 5)).2 =
        (if (1/2 : ℚ) ≤ (maxCount valid : ℚ) / valid.length then
          valid.find? (fun n => decide (valid.count n = maxCount valid))
        else none)) :=
  addDetection_voter_contract ⟨[], 2, 1/2⟩ 2 (1/2) (by norm_num) (by norm_num)
    (by norm_num) rfl rfl [some 5] (some 5)

/-! ## C10: soundness of the emitted stable note -/

/-- C10: whenever `addDetection` returns a note `n`, that note is one of
the non-absent entries stored in the (updated) window, and its occurrence
count among them is at least `threshold` times their number: the voter
never emits a note that did not occur among the last `capacity`
detections. -/
theorem addDetection_sound (v : NoteStabilityVoter) (a : Option ℤ) (n : ℤ)
    (h : (addDetection v a).2 = some n) :
    n ∈ (addDetection v a).1.window.filterMap id ∧
    v.threshold * (((addDetection v a).1.window.filterMap id).length : ℚ)
      ≤ (((addDetection v a).1.window.filterMap id).count n : ℚ) := by
  have hw2def : (addDetection v a).1.window
      = if (v.window ++ [a]).length > v.windowSize
        then (v.window ++ [a]).tail else v.window ++ [a] := by
    rw [addDetection_fst]
  by_cases hlen : (addDetection v a).1.window.length < v.windowSize
  · rw [addDetection_snd_short v a _ hw2def hlen] at h
    cases h
  · by_cases hval : (addDetection v a).1.window.filterMap id = []
    · rw [addDetection_snd_empty v a _ hw2def hlen hval] at h
      cases h
    · rw [addDetection_snd_stable v a _ hw2def hlen hval] at h
      set valid := (addDetection v a).1.window.filterMap id with hvdef
      by_cases hth : v.threshold ≤ (maxCount valid : ℚ) / valid.length
      · rw [if_pos hth] at h
        have hmem : n ∈ valid := List.mem_of_find?_eq_some h
        have hp := List.find?_some h
        have hcnt : valid.count n = maxCount valid := of_decide_eq_true hp
        have hlpos : (0 : ℚ) < (valid.length : ℚ) := by
          have h1 : 0 < valid.length := List.length_pos.mpr hval
          exact_mod_cast h1
        rw [le_div_iff₀ hlpos] at hth
        refine ⟨hmem, ?_⟩
        have hcq : ((valid.count n : ℕ) : ℚ) = ((maxCount valid : ℕ) : ℚ) := by
          exact_mod_cast hcnt
        rw [hcq]
        exact hth
      · rw [if_neg hth] at h
        cases h

/-! ## Helper lemmas for the controller -/

theorem filterMap_id_replicate_some (t : ℤ) (n : ℕ) :
    (List.replicate n (some t)).filterMap id = List.replicate n t := by
  induction n with
  | zero => rfl
  | succ n ih => simp [List.replicate_succ, ih]

theorem foldl_insertTally_replicate (t : ℤ) (n : ℕ) :
    ∀ k, (List.replicate n t).foldl insertTally [(t, k)] = [(t, k + n)] := by
  induction n with
  | zero => simp
  | succ n ih =>
      intro k
      rw [List.replicate_succ, List.foldl_cons]
      have hstep : insertTally [(t, k)] t = [(t, k + 1)] := by
        simp [insertTally]
      rw [hstep, ih (k + 1)]
      congr 2
      omega

theorem tally_replicate (t : ℤ) (n : ℕ) :
    tally (List.replicate (n + 1) t) = [(t, n + 1)] := by
  rw [tally, List.replicate_succ, List.foldl_cons]
  have h0 : insertTally [] t = [(t, 1)] := by simp [insertTally]
  rw [h0, foldl_insertTally_replicate t n 1]
  congr 2
  omega

theorem pickMax_singleton (t : ℤ) (c : ℕ) (hc : 0 < c) :
    pickMax [(t, c)] = (some t, c) := by
  simp [pickMax, hc]

theorem maxCount_replicate (t : ℤ) (n : ℕ) :
    maxCount (List.replicate n t) = n := by
  cases n with
  | zero => rfl
  | succ n =>
      have hmem : t ∈ List.replicate (n + 1) t :=
        List.mem_replicate.mpr ⟨by omega, rfl⟩
      have hcnt : (List.replicate (n + 1) t).count t = n + 1 :=
        List.count_replicate_self t (n + 1)
      refine le_antisymm ?_ ?_
      · rcases foldl_max_mem
            ((List.replicate (n + 1) t).map fun m =>
              (List.replicate (n + 1) t).count m) 0 with hm | hm
        · obtain ⟨x, hx, hcx⟩ := List.mem_map.mp hm
          rw [List.eq_of_mem_replicate hx] at hcx
          rw [maxCount]
          omega
        · rw [maxCount, hm]
          omega
      · have := count_le_maxCount hmem
        omega

theorem find?_replicate_self (t : ℤ) (n : ℕ) (hn : 0 < n) (p : ℤ → Bool)
    (hp : p t = true) :
    (List.replicate n t).find? p = some t := by
  cases n with
  | zero => omega
  | succ m => rw [List.replicate_succ, List.find?_cons_of_pos _ hp]

/-- A full window of the target: one more detection of the target keeps the
window identical and is voted stable (the count is 10 of 10). -/
theorem addDetection_replicate (t : ℤ) (th : ℚ) (hth : th ≤ 1) :
    addDetection ⟨List.replicate 10 (some t), 10, th⟩ (some t)
      = (⟨List.replicate 10 (some t), 10, th⟩, some t) := by
  have hw1 : List.replicate 10 (some t) ++ [some t]
      = List.replicate 11 (some t) := (List.replicate_succ' 10 (some t)).symm
  have htail : (List.replicate 11 (some t)).tail
      = List.replicate 10 (some t) := by
    rw [List.replicate_succ]
    rfl
  set v : NoteStabilityVoter := ⟨List.replicate 10 (some t), 10, th⟩ with hv
  have hw2 : List.replicate 10 (some t)
      = if (v.window ++ [some t]).length > v.windowSize
        then (v.window ++ [some t]).tail else v.window ++ [some t] := by
    rw [hv]
    simp only [hw1, htail, List.length_replicate]
    norm_num
  have hvalid : (List.replicate 10 (some t)).filterMap id
      = List.replicate 10 t := filterMap_id_replicate_some t 10
  have hvne : (List.replicate 10 (some t)).filterMap id ≠ [] := by
    rw [hvalid]
    simp
  have hlen : ¬ (List.replicate 10 (some t)).length < v.windowSize := by
    rw [List.length_replicate]
    show ¬ (10 : ℕ) < 10
    omega
  have hfst : (addDetection v (some t)).1
      = ⟨List.replicate 10 (some t), 10, th⟩ := by
    rw [addDetection_fst, ← hw2]
  have hsnd := addDetection_snd_stable v (some t)
    (List.replicate 10 (some t)) hw2 hlen hvne
  rw [hvalid, maxCount_replicate, List.length_replicate] at hsnd
  rw [if_pos (by push_cast; rw [div_self] <;> [exact hth; norm_num])] at hsnd
  rw [find?_replicate_self t 10 (by norm_num)
    (fun n => decide ((List.replicate 10 t).count n = 10))
    (by simp [List.count_replicate_self])] at hsnd
  rw [Prod.ext_iff]
  exact ⟨hfst.trans hv.symm, hsnd⟩

/-- Filling the last slot of a nine-deep window of the target: the pushed
window becomes full and the detection is voted stable. -/
theorem addDetection_replicate_fill (t : ℤ) (th : ℚ) (hth : th ≤ 1) :
    addDetection ⟨List.replicate 9 (some t), 10, th⟩ (some t)
      = (⟨List.replicate 10 (some t), 10, th⟩, some t) := by
  have hw1 : List.replicate 9 (some t) ++ [some t]
      = List.replicate 10 (some t) := (List.replicate_succ' 9 (some t)).symm
  set v : NoteStabilityVoter := ⟨List.replicate 9 (some t), 10, th⟩ with hv
  have hw2 : List.replicate 10 (some t)
      = if (v.window ++ [some t]).length > v.windowSize
        then (v.window ++ [some t]).tail else v.window ++ [some t] := by
    rw [hv]
    simp only [hw1, List.length_replicate]
    norm_num
  have hvalid : (List.replicate 10 (some t)).filterMap id
      = List.replicate 10 t := filterMap_id_replicate_some t 10
  have hvne : (List.replicate 10 (some t)).filterMap id ≠ [] := by
    rw [hvalid]
    simp
  have hlen : ¬ (List.replicate 10 (some t)).length < v.windowSize := by
    rw [List.length_replicate]
    show ¬ (10 : ℕ) < 10
    omega
  have hfst : (addDetection v (some t)).1
      = ⟨List.replicate 10 (some t), 10, th⟩ := by
    rw [addDetection_fst, ← hw2]
  have hsnd := addDetection_snd_stable v (some t)
    (List.replicate 10 (some t)) hw2 hlen hvne
  rw [hvalid, maxCount_replicate, List.length_replicate] at hsnd
  rw [if_pos (by push_cast; rw [div_self] <;> [exact hth; norm_num])] at hsnd
  rw [find?_replicate_self t 10 (by norm_num)
    (fun n => decide ((List.replicate 10 t).count n = 10))
    (by simp [List.count_replicate_self])] at hsnd
  rw [Prod.ext_iff]
  exact ⟨hfst, hsnd⟩

/-- A frame with no detected pitch: reset everything and emit "no-pitch"
(this happens regardless of a pending rotation). -/
theorem detectFrame_none (s : PitchState) (τ : ℚ) :
    detectFrame s ⟨τ, none⟩ =
      { resetLock s with
          status := Status.noPitch
          detectedNote := ""
          ringDirection := RingDirection.neutral
          waveSpeed := WAVE_SPEED_DEFAULT
          centsOffset := none } := rfl

/-- While a rotation is pending, a frame whose detection is voted stable
only advances the voter window and the detected-note display. -/
theorem detectFrame_pending_stable (s : PitchState) (τ c : ℚ) (m n : ℤ)
    (hrp : s.rotationPending = true)
    (hadd : (addDetection s.voter (some m)).2 = some n) :
    detectFrame s ⟨τ, some (m, c)⟩ =
      { s with
          voter := (addDetection s.voter (some m)).1
          detectedNote := midiToNoteName n } := by
  simp only [detectFrame, hrp, if_true, hadd]

/-- A frame whose detection is not voted stable resets the lock and sets
status "listening" (regardless of a pending rotation). -/
theorem detectFrame_unstable (s : PitchState) (τ c : ℚ) (m : ℤ)
    (hadd : (addDetection s.voter (some m)).2 = none) :
    (detectFrame s ⟨τ, some (m, c)⟩).lockProgress = 0 ∧
    (detectFrame s ⟨τ, some (m, c)⟩).status = Status.listening ∧
    (detectFrame s ⟨τ, some (m, c)⟩).lockStart = none ∧
    (detectFrame s ⟨τ, some (m, c)⟩).isLocked = false := by
  cases hrp : s.rotationPending with
  | true =>
      simp only [detectFrame, hrp, if_true, hadd]
      refine ⟨?_, ?_, ?_, ?_⟩ <;> first | rfl | trivial
  | false =>
      simp only [detectFrame, hrp, Bool.false_eq_true, if_false, hadd]
      refine ⟨?_, ?_, ?_, ?_⟩ <;> first | rfl | trivial

/-- With no rotation pending, a stable note that fails the match condition
resets the lock and sets status "try-again". -/
theorem detectFrame_mismatch (s : PitchState) (τ c : ℚ) (m n : ℤ)
    (hrp : s.rotationPending = false)
    (hadd : (addDetection s.voter (some m)).2 = some n)
    (hnm : ¬ (n = s.targetNote ∧ |c| ≤ PERFECT_CENTS)) :
    (detectFrame s ⟨τ, some (m, c)⟩).lockProgress = 0 ∧
    (detectFrame s ⟨τ, some (m, c)⟩).status = Status.tryAgain ∧
    (detectFrame s ⟨τ, some (m, c)⟩).lockStart = none ∧
    (detectFrame s ⟨τ, some (m, c)⟩).isLocked = false := by
  simp only [detectFrame, hrp, Bool.false_eq_true, if_false, hadd]
  rw [if_neg hnm]
  exact ⟨rfl, rfl, rfl, rfl⟩

/-- With no rotation pending, a stable note matching the target within the
perfect band drives the hold-to-lock machine: the lock-start is recorded on
first match, the stored progress only moves when it differs from the exact
fraction by at least `1/100`, and the lock fires exactly when the exact
fraction reaches 1. -/
theorem detectFrame_match (s : PitchState) (τ c : ℚ) (m n : ℤ)
    (hrp : s.rotationPending = false)
    (hadd : (addDetection s.voter (some m)).2 = some n)
    (hm : n = s.targetNote) (hc : |c| ≤ PERFECT_CENTS)
    (t0 p : ℚ) (ht0 : t0 = s.lockStart.getD τ)
    (hp : p = min ((τ - t0) / HOLD_DURATION_MS) 1) :
    (detectFrame s ⟨τ, some (m, c)⟩).lockStart = some t0 ∧
    (detectFrame s ⟨τ, some (m, c)⟩).voter = (addDetection s.voter (some m)).1 ∧
    (detectFrame s ⟨τ, some (m, c)⟩).targetNote = s.targetNote ∧
    ((1 ≤ p ∧ s.isLocked = false) →
      (detectFrame s ⟨τ, some (m, c)⟩).status = Status.correct ∧
      (detectFrame s ⟨τ, some (m, c)⟩).isLocked = true ∧
      (detectFrame s ⟨τ, some (m, c)⟩).lockProgress = 1 ∧
      (detectFrame s ⟨τ, some (m, c)⟩).rotationPending = true) ∧
    (¬ (1 ≤ p ∧ s.isLocked = false) →
      (detectFrame s ⟨τ, some (m, c)⟩).status = Status.listening ∧
      (detectFrame s ⟨τ, some (m, c)⟩).isLocked = s.isLocked ∧
      (detectFrame s ⟨τ, some (m, c)⟩).lockProgress =
        (if |s.lockProgress - p| < 1/100 then s.lockProgress else p) ∧
      (detectFrame s ⟨τ, some (m, c)⟩).rotationPending = false) := by
  subst ht0
  subst hp
  subst hm
  simp only [detectFrame, hrp, Bool.false_eq_true, if_false, hadd]
  rw [if_pos (⟨trivial, hc⟩ : True ∧ |c| ≤ PERFECT_CENTS)]
  by_cases hcond : 1 ≤ (τ - s.lockStart.getD τ) / HOLD_DURATION_MS ⊓ 1
      ∧ s.isLocked = false
  · rw [if_pos hcond]
    exact ⟨rfl, rfl, rfl, fun _ => ⟨rfl, rfl, rfl, rfl⟩,
      fun hn => absurd hcond hn⟩
  · rw [if_neg hcond]
    exact ⟨rfl, rfl, rfl, fun hyes => absurd hyes hcond,
      fun _ => ⟨rfl, rfl, rfl, rfl⟩⟩

/-- The first matching frame of a fresh lock session establishes the
invariant at its own timestamp. -/
theorem lockInv_start (t : ℤ) (τ0 c : ℚ) (s : PitchState)
    (hvoter : s.voter = ⟨List.replicate 10 (some t), 10, 7/10⟩)
    (htg : s.targetNote = t) (hrp : s.rotationPending = false)
    (hlk : s.isLocked = false) (hls : s.lockStart = none)
    (hlp : s.lockProgress = 0) (hc : |c| ≤ PERFECT_CENTS) :
    LockInv t τ0 τ0 (detectFrame s ⟨τ0, some (t, c)⟩) ∧
    s.lockProgress ≤ (detectFrame s ⟨τ0, some (t, c)⟩).lockProgress := by
  have hpair := addDetection_replicate t (7/10) (by norm_num)
  have hadd : (addDetection s.voter (some t)).2 = some t := by
    rw [hvoter, hpair]
  have hfst : (addDetection s.voter (some t)).1
      = ⟨List.replicate 10 (some t), 10, 7/10⟩ := by
    rw [hvoter, hpair]
  have ht0 : τ0 = s.lockStart.getD τ0 := by rw [hls]; rfl
  have hp0 : (0 : ℚ) = min ((τ0 - τ0) / HOLD_DURATION_MS) 1 := by
    rw [HOLD_DURATION_MS]
    norm_num
  obtain ⟨hstart, hvt, htgt, _, helse⟩ :=
    detectFrame_match s τ0 c t t hrp hadd htg.symm hc τ0 0 ht0 hp0
  have hncond : ¬ ((1 : ℚ) ≤ 0 ∧ s.isLocked = false) := by
    intro hcond
    norm_num at hcond
  obtain ⟨hst, hlk', hlp', hrp'⟩ := helse hncond
  have hfr : HOLD_DURATION_MS ≤ τ0 - τ0 ↔ False := by
    rw [HOLD_DURATION_MS]
    norm_num
  refine ⟨⟨hvt.trans hfst, htgt.trans htg, hstart, ?_⟩, ?_⟩
  · rw [if_neg (by rw [hfr]; exact id)]
    refine ⟨hst, hlk'.trans hlk, hrp', ?_, ?_⟩
    · rw [hlp', hlp]
      norm_num
    · rw [hlp', hlp]
      norm_num
  · rw [hlp', hlp]
    norm_num

/-- One more matching frame at a later timestamp preserves the invariant,
and the stored lock progress never decreases. -/
theorem lockInv_step (t : ℤ) (τ0 τ τ' c : ℚ) (s : PitchState)
    (hInv : LockInv t τ0 τ s) (hττ : τ ≤ τ') (hc : |c| ≤ PERFECT_CENTS) :
    LockInv t τ0 τ' (detectFrame s ⟨τ', some (t, c)⟩) ∧
    s.lockProgress ≤ (detectFrame s ⟨τ', some (t, c)⟩).lockProgress := by
  obtain ⟨hvoter, htg, hls, hcase⟩ := hInv
  have hpair := addDetection_replicate t (7/10) (by norm_num)
  have hadd : (addDetection s.voter (some t)).2 = some t := by
    rw [hvoter, hpair]
  have hfst : (addDetection s.voter (some t)).1
      = ⟨List.replicate 10 (some t), 10, 7/10⟩ := by
    rw [hvoter, hpair]
  have h1200 : (0 : ℚ) < HOLD_DURATION_MS := by rw [HOLD_DURATION_MS]; norm_num
  by_cases hlock : HOLD_DURATION_MS ≤ τ - τ0
  · rw [if_pos hlock] at hcase
    obtain ⟨hst, hlkT, hlp1, hrpT⟩ := hcase
    have hfreeze := detectFrame_pending_stable s τ' c t t hrpT hadd
    rw [hfreeze]
    refine ⟨⟨hfst, htg, hls, ?_⟩, le_refl _⟩
    rw [if_pos (by linarith)]
    exact ⟨hst, hlkT, hlp1, hrpT⟩
  · rw [if_neg hlock] at hcase
    obtain ⟨hstL, hlkF, hrpF, hlb, hub⟩ := hcase
    have ht0 : τ0 = s.lockStart.getD τ' := by rw [hls]; rfl
    set p := min ((τ' - τ0) / HOLD_DURATION_MS) 1 with hpdef
    obtain ⟨hstart, hvt, htgt, hyes, hno⟩ :=
      detectFrame_match s τ' c t t hrpF hadd htg.symm hc τ0 p ht0 rfl
    have hq : s.lockProgress ≤ (τ' - τ0) / HOLD_DURATION_MS := by
      calc s.lockProgress ≤ (τ - τ0) / HOLD_DURATION_MS := hub
        _ ≤ (τ' - τ0) / HOLD_DURATION_MS :=
            (div_le_div_iff_of_pos_right h1200).mpr (by linarith)
    by_cases hlock' : HOLD_DURATION_MS ≤ τ' - τ0
    · have hp1 : p = 1 := by
        rw [hpdef]
        apply min_eq_right
        rw [le_div_iff₀ h1200]
        linarith
      obtain ⟨hst, hlkT, hlp1, hrpT⟩ := hyes ⟨hp1.ge, hlkF⟩
      refine ⟨⟨hvt.trans hfst, htgt.trans htg, hstart, ?_⟩, ?_⟩
      · rw [if_pos hlock']
        exact ⟨hst, hlkT, hlp1, hrpT⟩
      · rw [hlp1]
        have hle1 : (τ - τ0) / HOLD_DURATION_MS ≤ 1 := by
          rw [div_le_one h1200]
          linarith
        linarith
    · have hple : (τ' - τ0) / HOLD_DURATION_MS ≤ 1 := by
        rw [div_le_one h1200]
        linarith
      have hpeq : p = (τ' - τ0) / HOLD_DURATION_MS := min_eq_left hple
      have hncond : ¬ (1 ≤ p ∧ s.isLocked = false) := by
        intro hcond
        have h1p : (1 : ℚ) ≤ (τ' - τ0) / HOLD_DURATION_MS := hpeq ▸ hcond.1
        rw [le_div_iff₀ h1200] at h1p
        linarith
      obtain ⟨hst, hlk', hlp', hrp'⟩ := hno hncond
      rw [hpeq] at hlp'
      refine ⟨⟨hvt.trans hfst, htgt.trans htg, hstart, ?_⟩, ?_⟩
      · rw [if_neg hlock']
        refine ⟨hst, hlk'.trans hlkF, hrp', ?_, ?_⟩
        · rw [hlp']
          by_cases hkeep : |s.lockProgress - (τ' - τ0) / HOLD_DURATION_MS|
              < 1/100
          · rw [if_pos hkeep]
            have := (abs_lt.mp hkeep).1
            linarith
          · rw [if_neg hkeep]
            linarith
        · rw [hlp']
          by_cases hkeep : |s.lockProgress - (τ' - τ0) / HOLD_DURATION_MS|
              < 1/100
          · rw [if_pos hkeep]
            exact hq
          · rw [if_neg hkeep]
      · rw [hlp']
        by_cases hkeep : |s.lockProgress - (τ' - τ0) / HOLD_DURATION_MS|
            < 1/100
        · rw [if_pos hkeep]
        · rw [if_neg hkeep]
          exact hq

/-- Running any number of further matching frames with non-decreasing
timestamps preserves the invariant, and the stored lock progress is
non-decreasing along the whole run. -/
theorem lockInv_run (t : ℤ) (τ0 : ℚ) (ps : List (ℚ × ℚ)) :
    ∀ (τ : ℚ) (s : PitchState), LockInv t τ0 τ s →
    List.Chain (· ≤ ·) τ (ps.map Prod.fst) →
    (∀ p ∈ ps, |p.2| ≤ PERFECT_CENTS) →
    LockInv t τ0 ((ps.map Prod.fst).getLastD τ)
      (runFrames s (ps.map fun p => ⟨p.1, some (t, p.2)⟩)) ∧
    List.Chain' (fun a b : PitchState => a.lockProgress ≤ b.lockProgress)
      (List.scanl detectFrame s (ps.map fun p => ⟨p.1, some (t, p.2)⟩)) := by
  induction ps with
  | nil =>
      intro τ s hInv _ _
      exact ⟨hInv, by simp⟩
  | cons q ps ih =>
      intro τ s hInv hchain hc
      rw [List.map_cons] at hchain
      obtain ⟨hτq, hchain'⟩ := List.chain_cons.mp hchain
      have hstep := lockInv_step t τ0 τ q.1 q.2 s hInv hτq
        (hc q (List.mem_cons_self q ps))
      have hrest := ih q.1 (detectFrame s ⟨q.1, some (t, q.2)⟩) hstep.1
        hchain' (fun p hp => hc p (List.mem_cons_of_mem q hp))
      constructor
      · rw [List.map_cons, List.getLastD_cons, List.map_cons]
        exact hrest.1
      · rw [List.map_cons, List.scanl_cons, List.singleton_append, List.chain'_cons']
        refine ⟨?_, hrest.2⟩
        intro b hb
        have hhead : (List.scanl detectFrame
            (detectFrame s ⟨q.1, some (t, q.2)⟩)
            (ps.map fun p => ⟨p.1, some (t, p.2)⟩)).head?
            = some (detectFrame s ⟨q.1, some (t, q.2)⟩) := by
          cases ps.map fun p => (⟨p.1, some (t, p.2)⟩ : Frame) <;> rfl
        rw [hhead] at hb
        have hb' : b = detectFrame s ⟨q.1, some (t, q.2)⟩ := by
          have := hb
          simp only [Option.mem_def, Option.some.injEq] at this
          exact this.symm
        rw [hb']
        exact hstep.2

/-! ## C3: behaviour while a rotation delay is pending -/

/-- C3 counterexample: in the locked state with a rotation pending (status
"correct"), a frame with no detected pitch rewrites the status to
"no-pitch", and a frame whose voter result is not stable rewrites it to
"listening" — the pending window does not suspend these status
overwrites, contrary to the claim. -/
theorem rotation_pending_overwrite_cex :
    lockedState.rotationPending = true ∧
    lockedState.status = Status.correct ∧
    (detectFrame lockedState ⟨2000, none⟩).status = Status.noPitch ∧
    (detectFrame scrambledPendingState ⟨2000, some (60, 0)⟩).status
      = Status.listening ∧
    Status.noPitch ≠ Status.correct ∧
    Status.listening ≠ Status.correct := by
  have hadd : (addDetection scrambledPendingState.voter (some 60)).2
      = none := by
    simp only [scrambledPendingState, lockedState, readyState, addDetection,
      tally, insertTally, pickMax, List.filterMap, List.foldl]
    norm_num
  refine ⟨rfl, rfl, ?_, ?_, by decide, by decide⟩
  · rw [detectFrame_none]
  · exact (detectFrame_unstable scrambledPendingState 2000 0 60 hadd).2.1

/-- C3 (amended): while a target-rotation delay is pending, a per-frame
step whose voter result is stable leaves the emitted status and the whole
lock/display state unchanged (only the voter window and the detected-note
name advance), so stable frames — matching or not — cannot overwrite the
"correct" feedback; frames with no detected pitch or with an unstable
voter result, however, do overwrite the status (see the counterexample). -/
theorem rotation_pending_stable_frozen (s : PitchState) (τ c : ℚ) (m n : ℤ)
    (hrp : s.rotationPending = true)
    (hadd : (addDetection s.voter (some m)).2 = some n) :
    (detectFrame s ⟨τ, some (m, c)⟩).status = s.status ∧
    (detectFrame s ⟨τ, some (m, c)⟩).lockProgress = s.lockProgress ∧
    (detectFrame s ⟨τ, some (m, c)⟩).isLocked = s.isLocked ∧
    (detectFrame s ⟨τ, some (m, c)⟩).lockStart = s.lockStart ∧
    (detectFrame s ⟨τ, some (m, c)⟩).ringDirection = s.ringDirection ∧
    (detectFrame s ⟨τ, some (m, c)⟩).centsOffset = s.centsOffset ∧
    (detectFrame s ⟨τ, some (m, c)⟩).waveSpeed = s.waveSpeed ∧
    (detectFrame s ⟨τ, some (m, c)⟩).targetNote = s.targetNote ∧
    (detectFrame s ⟨τ, some (m, c)⟩).rotationPending = true := by
  rw [detectFrame_pending_stable s τ c m n hrp hadd]
  exact ⟨rfl, rfl, rfl, rfl, rfl, rfl, rfl, rfl, hrp⟩

/-- Witness for C3 at the locked state, fed one more stable target frame. -/
theorem rotation_pending_stable_frozen_witness :
    (detectFrame lockedState ⟨2000, some (60, 0)⟩).status
        = lockedState.status ∧
    (detectFrame lockedState ⟨2000, some (60, 0)⟩).lockProgress
        = lockedState.lockProgress ∧
    (detectFrame lockedState ⟨2000, some (60, 0)⟩).isLocked
        = lockedState.isLocked ∧
    (detectFrame lockedState ⟨2000, some (60, 0)⟩).lockStart
        = lockedState.lockStart ∧
    (detectFrame lockedState ⟨2000, some (60, 0)⟩).ringDirection
        = lockedState.ringDirection ∧
    (detectFrame lockedState ⟨2000, some (60, 0)⟩).centsOffset
        = lockedState.centsOffset ∧
    (detectFrame lockedState ⟨2000, some (60, 0)⟩).waveSpeed
        = lockedState.waveSpeed ∧
    (detectFrame lockedState ⟨2000, some (60, 0)⟩).targetNote
        = lockedState.targetNote ∧
    (detectFrame lockedState ⟨2000, some (60, 0)⟩).rotationPending
        = true :=
  rotation_pending_stable_frozen lockedState 2000 0 60 60 rfl
    (congrArg Prod.snd (addDetection_replicate 60 (7/10) (by norm_num)))

/-! ## C4: the hold-to-lock timing -/

/-- C4 counterexample: two matching frames 5 ms apart starting from a
nine-deep window: on the second frame the exact progress is
`min(5/1200, 1) = 1/240`, but the stored `lockProgress` stays 0 because the
update is skipped when the change is below `0.01` — so `lockProgress` does
not equal `min((now - lockStart)/1200, 1)` on every matching frame. -/
theorem lockProgress_exact_cex :
    (detectFrame (detectFrame warmupState ⟨1000, some (60, 0)⟩)
        ⟨1005, some (60, 0)⟩).lockStart = some 1000 ∧
    (detectFrame (detectFrame warmupState ⟨1000, some (60, 0)⟩)
        ⟨1005, some (60, 0)⟩).lockProgress = 0 ∧
    min (((1005 : ℚ) - 1000) / HOLD_DURATION_MS) 1 ≠ 0 := by
  have hadd1 : (addDetection warmupState.voter (some 60)).2 = some 60 :=
    congrArg Prod.snd (addDetection_replicate_fill 60 (7/10) (by norm_num))
  have hfst1 : (addDetection warmupState.voter (some 60)).1
      = ⟨List.replicate 10 (some 60), 10, 7/10⟩ :=
    congrArg Prod.fst (addDetection_replicate_fill 60 (7/10) (by norm_num))
  have hp1 : (0 : ℚ) = min (((1000 : ℚ) - 1000) / HOLD_DURATION_MS) 1 := by
    rw [HOLD_DURATION_MS]
    norm_num
  obtain ⟨hstart1, hvt1, htgt1, _, hno1⟩ :=
    detectFrame_match warmupState 1000 0 60 60 rfl hadd1 rfl
      (by rw [PERFECT_CENTS]; norm_num) 1000 0 rfl hp1
  obtain ⟨hst1, hlk1, hlp1, hrp1⟩ := hno1
    (fun h => absurd h.1 (by norm_num))
  set s1 := detectFrame warmupState ⟨1000, some (60, 0)⟩ with hs1
  have hwlp : warmupState.lockProgress = 0 := rfl
  have hlp1' : s1.lockProgress = 0 := by
    rw [hlp1, hwlp]
    norm_num
  have hadd2 : (addDetection s1.voter (some 60)).2 = some 60 := by
    rw [hvt1, hfst1]
    exact congrArg Prod.snd (addDetection_replicate 60 (7/10) (by norm_num))
  have ht02 : (1000 : ℚ) = s1.lockStart.getD 1005 := by
    rw [hstart1]
    rfl
  have hp2 : (1/240 : ℚ) = min (((1005 : ℚ) - 1000) / HOLD_DURATION_MS) 1 := by
    rw [HOLD_DURATION_MS]
    norm_num
  obtain ⟨hstart2, _, _, _, hno2⟩ :=
    detectFrame_match s1 1005 0 60 60 hrp1 hadd2 htgt1.symm
      (by rw [PERFECT_CENTS]; norm_num) 1000 (1/240) ht02 hp2
  obtain ⟨_, _, hlp2, _⟩ := hno2
    (fun h => absurd h.1 (by norm_num))
  refine ⟨hstart2, ?_, ?_⟩
  · rw [hlp2, hlp1', zero_sub, abs_neg,
      abs_of_nonneg (by norm_num : (0 : ℚ) ≤ 1/240)]
    rw [if_pos (by norm_num)]
  · rw [HOLD_DURATION_MS]
    norm_num

/-- C4 (amended): starting from a fresh lock session with a full window of
the target, a run of frames each reporting the stable target note within
the perfect band, with non-decreasing timestamps, keeps the lock-start at
the first frame's timestamp; while fewer than 1200 ms have elapsed the
status stays "listening", `isLocked` stays false, and the stored
`lockProgress` is within `0.01` of `min((now - lockStart)/1200, 1)` (the
stored value is only updated when it would change by at least `0.01`); and
from the first frame at which at least 1200 ms have elapsed — never
before — the status is "correct", `isLocked` is true and `lockProgress`
is exactly 1. -/
theorem lock_hold_run (t : ℤ) (s0 : PitchState) (q : ℚ × ℚ)
    (rest : List (ℚ × ℚ))
    (hvoter : s0.voter = ⟨List.replicate 10 (some t), 10, 7/10⟩)
    (htg : s0.targetNote = t) (hrp : s0.rotationPending = false)
    (hlk : s0.isLocked = false) (hls : s0.lockStart = none)
    (hlp : s0.lockProgress = 0)
    (hcq : |q.2| ≤ PERFECT_CENTS)
    (hcr : ∀ p ∈ rest, |p.2| ≤ PERFECT_CENTS)
    (hchain : List.Chain (· ≤ ·) q.1 (rest.map Prod.fst)) :
    (runFrames s0 ((q :: rest).map fun p => ⟨p.1, some (t, p.2)⟩)).lockStart
        = some q.1 ∧
    ((rest.map Prod.fst).getLastD q.1 - q.1 < HOLD_DURATION_MS →
      (runFrames s0 ((q :: rest).map fun p => ⟨p.1, some (t, p.2)⟩)).status
          = Status.listening ∧
      (runFrames s0 ((q :: rest).map fun p => ⟨p.1, some (t, p.2)⟩)).isLocked
          = false ∧
      |(runFrames s0 ((q :: rest).map fun p =>
            ⟨p.1, some (t, p.2)⟩)).lockProgress -
          ((rest.map Prod.fst).getLastD q.1 - q.1) / HOLD_DURATION_MS|
        < 1/100) ∧
    (HOLD_DURATION_MS ≤ (rest.map Prod.fst).getLastD q.1 - q.1 →
      (runFrames s0 ((q :: rest).map fun p => ⟨p.1, some (t, p.2)⟩)).status
          = Status.correct ∧
      (runFrames s0 ((q :: rest).map fun p => ⟨p.1, some (t, p.2)⟩)).isLocked
          = true ∧
      (runFrames s0 ((q :: rest).map fun p =>
          ⟨p.1, some (t, p.2)⟩)).lockProgress = 1) := by
  have hstart := lockInv_start t q.1 q.2 s0 hvoter htg hrp hlk hls hlp hcq
  have hrun := lockInv_run t q.1 rest q.1
    (detectFrame s0 ⟨q.1, some (t, q.2)⟩) hstart.1 hchain hcr
  obtain ⟨hv, ht, hlsF, hcase⟩ := hrun.1
  have hrw : runFrames s0 ((q :: rest).map fun p => ⟨p.1, some (t, p.2)⟩)
      = runFrames (detectFrame s0 ⟨q.1, some (t, q.2)⟩)
          (rest.map fun p => ⟨p.1, some (t, p.2)⟩) := rfl
  rw [hrw]
  refine ⟨hlsF, ?_, ?_⟩
  · intro hlt
    rw [if_neg (not_le.mpr hlt)] at hcase
    obtain ⟨hst, hlkF, _, hlb, hub⟩ := hcase
    exact ⟨hst, hlkF, abs_lt.mpr ⟨by linarith, by linarith⟩⟩
  · intro hge
    rw [if_pos hge] at hcase
    exact ⟨hcase.1, hcase.2.1, hcase.2.2.1⟩

/-- Witness for C4: target 60 from `readyState`, matching frames at
1000 ms and 2200 ms; the second frame completes the 1200 ms hold. -/
theorem lock_hold_run_witness :
    (runFrames readyState (((1000, 0) :: [((2200 : ℚ), (0 : ℚ))]).map
        fun p => ⟨p.1, some (60, p.2)⟩)).lockStart = some (1000, (0 : ℚ)).1 ∧
    (([((2200 : ℚ), (0 : ℚ))].map Prod.fst).getLastD (1000, (0 : ℚ)).1
          - (1000, (0 : ℚ)).1 < HOLD_DURATION_MS →
      (runFrames readyState (((1000, 0) :: [((2200 : ℚ), (0 : ℚ))]).map
          fun p => ⟨p.1, some (60, p.2)⟩)).status = Status.listening ∧
      (runFrames readyState (((1000, 0) :: [((2200 : ℚ), (0 : ℚ))]).map
          fun p => ⟨p.1, some (60, p.2)⟩)).isLocked = false ∧
      |(runFrames readyState (((1000, 0) :: [((2200 : ℚ), (0 : ℚ))]).map
            fun p => ⟨p.1, some (60, p.2)⟩)).lockProgress -
          (([((2200 : ℚ), (0 : ℚ))].map Prod.fst).getLastD (1000, (0 : ℚ)).1
            - (1000, (0 : ℚ)).1) / HOLD_DURATION_MS| < 1/100) ∧
    (HOLD_DURATION_MS ≤ ([((2200 : ℚ), (0 : ℚ))].map Prod.fst).getLastD
          (1000, (0 : ℚ)).1 - (1000, (0 : ℚ)).1 →
      (runFrames readyState (((1000, 0) :: [((2200 : ℚ), (0 : ℚ))]).map
          fun p => ⟨p.1, some (60, p.2)⟩)).status = Status.correct ∧
      (runFrames readyState (((1000, 0) :: [((2200 : ℚ), (0 : ℚ))]).map
          fun p => ⟨p.1, some (60, p.2)⟩)).isLocked = true ∧
      (runFrames readyState (((1000, 0) :: [((2200 : ℚ), (0 : ℚ))]).map
          fun p => ⟨p.1, some (60, p.2)⟩)).lockProgress = 1) :=
  lock_hold_run 60 readyState (1000, 0) [((2200 : ℚ), (0 : ℚ))] rfl rfl rfl
    rfl rfl rfl (by rw [PERFECT_CENTS]; norm_num)
    (by
      intro p hp
      rw [List.mem_singleton] at hp
      rw [hp, PERFECT_CENTS]
      norm_num)
    (List.Chain.cons (by norm_num) List.Chain.nil)

/-! ## C5: lock-progress monotonicity and reset on break -/

/-- C5 counterexample: in the locked state with a rotation pending, a
frame whose stable note matches the target but whose cents offset is 100
(a mismatched offset, breaking the matching condition) leaves
`lockProgress` at 1 and the status at "correct" — no reset to 0 and no
"try-again" while the rotation delay is pending. -/
theorem lock_reset_cex :
    lockedState.rotationPending = true ∧
    (detectFrame lockedState ⟨2000, some (60, 100)⟩).lockProgress = 1 ∧
    (detectFrame lockedState ⟨2000, some (60, 100)⟩).status
      = Status.correct ∧
    (1 : ℚ) ≠ 0 ∧
    Status.correct ≠ Status.tryAgain := by
  have hadd : (addDetection lockedState.voter (some 60)).2 = some 60 :=
    congrArg Prod.snd (addDetection_replicate 60 (7/10) (by norm_num))
  rw [detectFrame_pending_stable lockedState 2000 100 60 60 rfl hadd]
  exact ⟨rfl, rfl, rfl, by norm_num, by decide⟩

/-- C5 (amended): with no rotation pending, the stored `lockProgress` is
monotonically non-decreasing along a continuously matching run, and the
frame that breaks the matching condition resets it to 0: a no-pitch frame
emits "no-pitch", an unstable frame emits "listening", and a stable frame
failing the match condition emits "try-again" — but while a rotation delay
is pending a mismatched stable frame leaves the lock state and status
untouched (see the counterexample). -/
theorem lock_monotone_and_reset :
    (∀ (t : ℤ) (s0 : PitchState) (q : ℚ × ℚ) (rest : List (ℚ × ℚ)),
      s0.voter = ⟨List.replicate 10 (some t), 10, 7/10⟩ →
      s0.targetNote = t → s0.rotationPending = false →
      s0.isLocked = false → s0.lockStart = none → s0.lockProgress = 0 →
      |q.2| ≤ PERFECT_CENTS → (∀ p ∈ rest, |p.2| ≤ PERFECT_CENTS) →
      List.Chain (· ≤ ·) q.1 (rest.map Prod.fst) →
      List.Chain' (fun a b : PitchState => a.lockProgress ≤ b.lockProgress)
        (List.scanl detectFrame s0
          ((q :: rest).map fun p => ⟨p.1, some (t, p.2)⟩))) ∧
    (∀ (s : PitchState) (τ : ℚ),
      (detectFrame s ⟨τ, none⟩).lockProgress = 0 ∧
      (detectFrame s ⟨τ, none⟩).status = Status.noPitch) ∧
    (∀ (s : PitchState) (τ c : ℚ) (m : ℤ),
      (addDetection s.voter (some m)).2 = none →
      (detectFrame s ⟨τ, some (m, c)⟩).lockProgress = 0 ∧
      (detectFrame s ⟨τ, some (m, c)⟩).status = Status.listening) ∧
    (∀ (s : PitchState) (τ c : ℚ) (m n : ℤ),
      s.rotationPending = false →
      (addDetection s.voter (some m)).2 = some n →
      ¬ (n = s.targetNote ∧ |c| ≤ PERFECT_CENTS) →
      (detectFrame s ⟨τ, some (m, c)⟩).lockProgress = 0 ∧
      (detectFrame s ⟨τ, some (m, c)⟩).status = Status.tryAgain) := by
  refine ⟨?_, ?_, ?_, ?_⟩
  · intro t s0 q rest hvoter htg hrp hlk hls hlp hcq hcr hchain
    have hstart := lockInv_start t q.1 q.2 s0 hvoter htg hrp hlk hls hlp hcq
    have hrun := lockInv_run t q.1 rest q.1
      (detectFrame s0 ⟨q.1, some (t, q.2)⟩) hstart.1 hchain hcr
    rw [List.map_cons, List.scanl_cons, List.singleton_append,
      List.chain'_cons']
    refine ⟨?_, hrun.2⟩
    intro b hb
    have hhead : (List.scanl detectFrame
        (detectFrame s0 ⟨q.1, some (t, q.2)⟩)
        (rest.map fun p => ⟨p.1, some (t, p.2)⟩)).head?
        = some (detectFrame s0 ⟨q.1, some (t, q.2)⟩) := by
      cases rest.map fun p => (⟨p.1, some (t, p.2)⟩ : Frame) <;> rfl
    rw [hhead] at hb
    have hb' : b = detectFrame s0 ⟨q.1, some (t, q.2)⟩ := by
      have := hb
      simp only [Option.mem_def, Option.some.injEq] at this
      exact this.symm
    rw [hb']
    exact hstart.2
  · intro s τ
    rw [detectFrame_none]
    exact ⟨rfl, rfl⟩
  · intro s τ c m hadd
    have h := detectFrame_unstable s τ c m hadd
    exact ⟨h.1, h.2.1⟩
  · intro s τ c m n hrp hadd hnm
    have h := detectFrame_mismatch s τ c m n hrp hadd hnm
    exact ⟨h.1, h.2.1⟩

/-- Witness for C5: a mismatched-offset frame at `readyState` resets the
lock to 0 with "try-again", and a no-pitch frame resets with "no-pitch". -/
theorem lock_monotone_and_reset_witness :
    ((detectFrame readyState ⟨0, none⟩).lockProgress = 0 ∧
      (detectFrame readyState ⟨0, none⟩).status = Status.noPitch) ∧
    ((detectFrame readyState ⟨0, some (60, 100)⟩).lockProgress = 0 ∧
      (detectFrame readyState ⟨0, some (60, 100)⟩).status
        = Status.tryAgain) :=
  ⟨lock_monotone_and_reset.2.1 readyState 0,
    lock_monotone_and_reset.2.2.2 readyState 0 100 60 60 rfl
      (congrArg Prod.snd (addDetection_replicate 60 (7/10) (by norm_num)))
      (by
        intro hcon
        rw [PERFECT_CENTS] at hcon
        norm_num at hcon)⟩

/-- Witness for C10: the voter `⟨[some 5], 2, 1/2⟩` fed one more note 5
emits 5. -/
theorem addDetection_sound_witness :
    (5 : ℤ) ∈ (addDetection ⟨[some 5], 2, 1/2⟩ (some 5)).1.window.filterMap id ∧
    NoteStabilityVoter.threshold ⟨[some 5], 2, 1/2⟩ *
        (((addDetection ⟨[some 5], 2, 1/2⟩ (some 5)).1.window.filterMap
            id).length : ℚ)
      ≤ (((addDetection ⟨[some 5], 2, 1/2⟩ (some 5)).1.window.filterMap
            id).count 5 : ℚ) :=
  addDetection_sound ⟨[some 5], 2, 1/2⟩ (some 5) 5 (by
    simp only [addDetection, tally, insertTally, pickMax, List.filterMap,
      List.foldl]
    norm_num)

end PitchDetector
